import Mathlib

/-!
Verification of the chess move-generation and board-state engine
(`Lesson2/Chess.py`): a shallow embedding of the `ChessPiece` hierarchy
(`Pawn`, `Rook`, `Bishop`) and `ChessBoard` into Lean, followed by theorems
about the embedded definitions.

Conventions of the embedding:
* A board is a function `Fin 8 → Fin 8 → Option Piece`; the first index is
  the row (`y`, the rank), the second the column (`x`, the file), mirroring
  the Python `board[y][x]` indexing.
* Python `list` indexing on the 8×8 grid is modelled by `pyGet`/`pySet`:
  an index in `[0,7]` selects directly, an index in `[-8,-1]` wraps (Python
  negative indexing), anything else raises `IndexError`, modelled as
  `Except.error PyErr.indexError`.
* Python `while` loops are modelled with a fuel parameter large enough that
  fuel exhaustion (`PyErr.fuelOut`) is unreachable in every execution the
  theorems talk about.
* The Python comparison `self.color == 'white'` compares a plain `Enum`
  member with a `str`; `enum.Enum.__eq__` falls back to identity, so the
  comparison is `False` for both colors.  It is embedded by `pyEq` on a
  type of Python values, which returns `false` on mixed-type operands.
-/

/-- The `Color` enum of the source: `WHITE = 'white'`, `BLACK = 'black'`. -/
inductive Color : Type
  | white
  | black
deriving DecidableEq, Repr

/-- The three concrete piece classes of the source. -/
inductive Kind : Type
  | pawn
  | rook
  | bishop
deriving DecidableEq, Repr

/-- A `ChessPiece`: its class (`kind`), `color` and `position` attributes.
`position` is a pair of Python ints, so it is *not* constrained to the
board. -/
structure Piece : Type where
  kind : Kind
  color : Color
  position : Int × Int
deriving DecidableEq, Repr

/-- The 8×8 grid `ChessBoard.board`: row index first (`b y x` is
`board[y][x]`). -/
abbrev Board : Type := Fin 8 → Fin 8 → Option Piece

/-- The empty board built by `ChessBoard.__init__`. -/
def emptyBoard : Board := fun _ _ => none

/-- Functional update of one cell of the grid (row `ry`, column `cx`). -/
def boardSet (b : Board) (ry cx : Fin 8) (v : Option Piece) : Board :=
  fun r c => if r = ry ∧ c = cx then v else b r c

/-- Python values appearing in the source's `==` comparisons between a
`Color` enum member and a string literal. -/
inductive PyVal : Type
  | enum (c : Color)
  | str (s : String)

/-- Python `==` on those values: a plain `Enum` member never equals a
`str` (`Enum.__eq__` falls back to object identity), so mixed-type
comparisons yield `False`. -/
def pyEq : PyVal → PyVal → Bool
  | .enum a, .enum b => a = b
  | .str a, .str b => a = b
  | _, _ => false

/-- A Python exception raised by grid indexing (`IndexError`), or the
fuel-exhaustion marker standing for a non-terminating `while` loop. -/
inductive PyErr : Type
  | indexError
  | fuelOut
deriving DecidableEq, Repr

/-- Python list indexing on a list of length 8: `0 ≤ i ≤ 7` selects
directly, `-8 ≤ i ≤ -1` wraps to `i + 8`, anything else is an
`IndexError` (modelled as `none`). -/
def pyIndex (i : Int) : Option (Fin 8) :=
  if h : 0 ≤ i ∧ i < 8 then some ⟨i.toNat, by omega⟩
  else if h' : -8 ≤ i ∧ i < 0 then some ⟨(i + 8).toNat, by omega⟩
  else none

/-- `board[y][x]` with full Python indexing semantics (wrap / IndexError). -/
def pyGet (b : Board) (x y : Int) : Except PyErr (Option Piece) :=
  match pyIndex y with
  | none => .error .indexError
  | some fy =>
    match pyIndex x with
    | none => .error .indexError
    | some fx => .ok (b fy fx)

/-- `board[y][x] = v` with full Python indexing semantics. -/
def pySet (b : Board) (x y : Int) (v : Option Piece) : Except PyErr Board :=
  match pyIndex y with
  | none => .error .indexError
  | some fy =>
    match pyIndex x with
    | none => .error .indexError
    | some fx => .ok (boardSet b fy fx v)

/-- Reading a cell at coordinates already known to be in bounds; used to
embed grid reads that the source guards with an explicit
`0 <= · < 8` check (it returns `none` out of bounds, but every use site
is guarded). -/
def boardGet (b : Board) (x y : Int) : Option Piece :=
  if h : (0 ≤ x ∧ x < 8) ∧ 0 ≤ y ∧ y < 8 then
    b ⟨y.toNat, by omega⟩ ⟨x.toNat, by omega⟩
  else none

/-- The in-bounds predicate `0 <= x < 8 and 0 <= y < 8`. -/
def inB (x y : Int) : Prop := 0 ≤ x ∧ x < 8 ∧ 0 ≤ y ∧ y < 8

instance (x y : Int) : Decidable (inB x y) := by
  unfold inB; infer_instance

namespace Pawn

/-- The source's `direction = 1 if self.color == 'white' else -1`, a
mixed Enum/str comparison: `pyEq` is `false` on it for both colors, so
the computed direction is `-1` for every pawn. -/
def direction (c : Color) : Int :=
  if pyEq (.enum c) (.str "white") then 1 else -1

/-- The forward step of `Pawn.get_possible_moves`:
`if 0 <= y + direction < 8 and board[y + direction][x] is None`.  Only the
rank is guarded before the read `board[y + direction][x]`, so that read
uses raw Python indexing (`pyGet`). -/
def forwardMoves (p : Piece) (b : Board) : Except PyErr (List (Int × Int)) :=
  let x := p.position.1
  let y := p.position.2
  if 0 ≤ y + direction p.color ∧ y + direction p.color < 8 then
    match pyGet b x (y + direction p.color) with
    | .error e => .error e
    | .ok none => .ok [(x, y + direction p.color)]
    | .ok (some _) => .ok []
  else .ok []

/-- One iteration of the capture loop `for dx in [-1, 1]` of
`Pawn.get_possible_moves`: the diagonal square, fully bounds-guarded
before the read. -/
def diagMoves (p : Piece) (b : Board) (dx : Int) : List (Int × Int) :=
  let nx := p.position.1 + dx
  let ny := p.position.2 + direction p.color
  if inB nx ny then
    match boardGet b nx ny with
    | some t => if t.color ≠ p.color then [(nx, ny)] else []
    | none => []
  else []

/-- `Pawn.get_possible_moves`: the forward step followed by the two
capture diagonals, appended in source order. -/
def get_possible_moves (p : Piece) (b : Board) :
    Except PyErr (List (Int × Int)) :=
  match forwardMoves p b with
  | .error e => .error e
  | .ok forwards => .ok (forwards ++ diagMoves p b (-1) ++ diagMoves p b 1)

/-- `Pawn.can_attack`: explicit bounds check on the target, then the
forward-diagonal test; the single grid read happens only after the bounds
check, so the function is total. -/
def can_attack (p : Piece) (b : Board) (x y : Int) : Bool :=
  if ¬ (0 ≤ x ∧ x < 8 ∧ 0 ≤ y ∧ y < 8) then false
  else
    let px := p.position.1
    let py := p.position.2
    if (x = px - 1 ∨ x = px + 1) ∧ y = py + direction p.color then
      match boardGet b x y with
      | some t => t.color ≠ p.color
      | none => false
    else false

end Pawn

/-- The shared sliding walk of `Rook.get_possible_moves` and
`Bishop.get_possible_moves`: from `(nx, ny)`, while in bounds, an empty
square is appended and the walk continues; the first occupied square is
appended iff it holds an opposite-color piece, and the walk stops.  `fuel`
bounds the loop; the callers pass `8`, which the walk can never exhaust
(each step moves one square along a direction, so at most 7 in-bounds
steps happen). -/
def slide (b : Board) (c : Color) (dx dy : Int) :
    Int → Int → Nat → List (Int × Int)
  | _, _, 0 => []
  | nx, ny, fuel + 1 =>
    if inB nx ny then
      match boardGet b nx ny with
      | none => (nx, ny) :: slide b c dx dy (nx + dx) (ny + dy) fuel
      | some t => if t.color ≠ c then [(nx, ny)] else []
    else []

namespace Rook

/-- The direction list of `Rook.get_possible_moves`. -/
def directions : List (Int × Int) := [(1, 0), (-1, 0), (0, 1), (0, -1)]

/-- `Rook.get_possible_moves`: the sliding walk along each orthogonal
direction, starting one step away from the piece. -/
def get_possible_moves (p : Piece) (b : Board) : List (Int × Int) :=
  let x := p.position.1
  let y := p.position.2
  directions.flatMap fun d =>
    slide b p.color d.1 d.2 (x + d.1) (y + d.2) 8

end Rook

namespace Bishop

/-- The direction list of `Bishop.get_possible_moves`. -/
def directions : List (Int × Int) := [(-1, 1), (1, 1), (1, -1), (-1, -1)]

/-- `Bishop.get_possible_moves`: the sliding walk along each diagonal. -/
def get_possible_moves (p : Piece) (b : Board) : List (Int × Int) :=
  let x := p.position.1
  let y := p.position.2
  directions.flatMap fun d =>
    slide b p.color d.1 d.2 (x + d.1) (y + d.2) 8

end Bishop

/-- Dispatch of the abstract `get_possible_moves` over the piece's class.
The rook and bishop walks are total (every grid read is bounds-guarded),
so they are wrapped in `.ok`; the pawn's forward read can raise. -/
def get_possible_moves (p : Piece) (b : Board) :
    Except PyErr (List (Int × Int)) :=
  match p.kind with
  | .pawn => Pawn.get_possible_moves p b
  | .rook => .ok (Rook.get_possible_moves p b)
  | .bishop => .ok (Bishop.get_possible_moves p b)

/-- The loop of `ChessPiece.is_path_clear`:
`while (cx, cy) != (x, y): if board[cy][cx] is not None: return False; step`.
The target test precedes the grid read, so a step that lands exactly on
`(x, y)` is never read.  The read uses raw Python indexing, so walking off
the board wraps (negative index) or raises `IndexError`. -/
def isPathClearGo (b : Board) (x y dx dy : Int) :
    Int → Int → Nat → Except PyErr Bool
  | _, _, 0 => .error .fuelOut
  | cx, cy, fuel + 1 =>
    if (cx, cy) = (x, y) then .ok true
    else
      match pyGet b cx cy with
      | .error e => .error e
      | .ok (some _) => .ok false
      | .ok none => isPathClearGo b x y dx dy (cx + dx) (cy + dy) fuel

/-- `ChessPiece.is_path_clear`: starts one step from the piece's position.
Fuel 64 is unreachable in every call site analyzed below (a walk either
reaches the target, hits a piece, or leaves the index range `[-8, 7]`
within at most 26 steps). -/
def is_path_clear (p : Piece) (b : Board) (x y dx dy : Int) :
    Except PyErr Bool :=
  isPathClearGo b x y dx dy (p.position.1 + dx) (p.position.2 + dy) 64

/-- The shared tail of `Rook.can_attack` and `Bishop.can_attack`:
`if not self.is_path_clear(...): return False`, then
`target = board[y][x]; return target is not None and target.color !=
self.color`, with exceptions from the walk or the raw target read
propagated. -/
def attackTail (p : Piece) (b : Board) (x y : Int)
    (path : Except PyErr Bool) : Except PyErr Bool :=
  match path with
  | .error e => .error e
  | .ok false => .ok false
  | .ok true =>
    match pyGet b x y with
    | .error e => .error e
    | .ok none => .ok false
    | .ok (some t) => .ok (t.color ≠ p.color)

namespace Rook

/-- `Rook.can_attack`: geometric pre-check (`x != px and y != py` rejects),
sign steps, path walk, then the occupant test `board[y][x]` with raw
Python indexing. -/
def can_attack (p : Piece) (b : Board) (x y : Int) : Except PyErr Bool :=
  let px := p.position.1
  let py := p.position.2
  if x ≠ px ∧ y ≠ py then .ok false
  else
    let dx : Int := if x = px then 0 else if x > px then 1 else -1
    let dy : Int := if y = py then 0 else if y > py then 1 else -1
    attackTail p b x y (is_path_clear p b x y dx dy)

end Rook

namespace Bishop

/-- `Bishop.can_attack`: diagonal pre-check (`abs dx != abs dy` rejects),
sign steps (note `step = -1` when the coordinate difference is zero),
path walk, then the occupant test with raw Python indexing. -/
def can_attack (p : Piece) (b : Board) (x y : Int) : Except PyErr Bool :=
  let px := p.position.1
  let py := p.position.2
  let dx : Int := x - px
  let dy : Int := y - py
  if dx.natAbs ≠ dy.natAbs then .ok false
  else
    let step_x : Int := if dx > 0 then 1 else -1
    let step_y : Int := if dy > 0 then 1 else -1
    attackTail p b x y (is_path_clear p b x y step_x step_y)

end Bishop

/-- The observable outcome of `ChessBoard.move_piece`: the two failure
prints, a successful move, or an exception propagated out of the possible-
moves computation.  In every case but `.moved` the grid is untouched. -/
inductive MoveResult : Type
  | noPieceAtSquare
  | illegalMove
  | moved
  | raised (e : PyErr)
deriving DecidableEq, Repr

namespace ChessBoard

/-- `ChessBoard.place_piece`: `x, y = piece.position; board[y][x] = piece`,
with raw Python indexing — a negative coordinate wraps, a coordinate
outside `[-8, 7]` raises `IndexError`.  There is no occupancy check. -/
def place_piece (b : Board) (p : Piece) : Except PyErr Board :=
  pySet b p.position.1 p.position.2 (some p)

/-- `ChessBoard.move_piece` for board squares `from_pos`, `to_pos`.
The source reads `board[y1][x1]`; on a piece, it computes
`piece.get_possible_moves(self.board)` (which can raise — then nothing has
been mutated), and if `to_pos` is a member it performs
`board[y2][x2] = piece; board[y1][x1] = None; piece.position = to_pos`.
The final in-place mutation of `piece.position` updates the object just
stored at the destination cell, so it is modelled by storing the
position-updated piece there; the writes keep the source's order, so a
hypothetical `from = to` call nets an empty square exactly as in Python. -/
def move_piece (b : Board) (fromP toP : Fin 8 × Fin 8) :
    Board × MoveResult :=
  match b fromP.2 fromP.1 with
  | none => (b, .noPieceAtSquare)
  | some piece =>
    match get_possible_moves piece b with
    | .error e => (b, .raised e)
    | .ok possible_moves =>
      if ((toP.1 : Int), (toP.2 : Int)) ∈ possible_moves then
        (boardSet (boardSet b toP.2 toP.1
            (some { piece with position := ((toP.1 : Int), (toP.2 : Int)) }))
          fromP.2 fromP.1 none,
         .moved)
      else (b, .illegalMove)

end ChessBoard

/-- Board states reachable from the empty board by placements of pieces
with in-bounds positions and by arbitrary `move_piece` calls on board
squares. -/
inductive Reachable : Board → Prop
  | empty : Reachable emptyBoard
  | place {b b' : Board} {p : Piece} :
      Reachable b → inB p.position.1 p.position.2 →
      ChessBoard.place_piece b p = .ok b' → Reachable b'
  | move {b : Board} (fromP toP : Fin 8 × Fin 8) :
      Reachable b → Reachable (ChessBoard.move_piece b fromP toP).1

/-! ### Basic lemmas about grid access -/

theorem boardGet_eq (b : Board) (x y : Int) (h : inB x y) :
    boardGet b x y =
      b ⟨y.toNat, by rcases h with ⟨_, _, _, _⟩; omega⟩
        ⟨x.toNat, by rcases h with ⟨_, _, _, _⟩; omega⟩ := by
  rcases h with ⟨h1, h2, h3, h4⟩
  simp [boardGet, h1, h2, h3, h4]

theorem pyGet_eq_boardGet (b : Board) (x y : Int) (h : inB x y) :
    pyGet b x y = .ok (boardGet b x y) := by
  rcases h with ⟨h1, h2, h3, h4⟩
  simp [pyGet, pyIndex, boardGet, h1, h2, h3, h4]

theorem boardGet_fin (b : Board) (ry cx : Fin 8) :
    boardGet b (cx : Int) (ry : Int) = b ry cx := by
  have h : inB (cx : Int) (ry : Int) := by
    refine ⟨by positivity, ?_, by positivity, ?_⟩ <;> exact_mod_cast Fin.is_lt _
  rw [boardGet_eq b _ _ h]
  congr 1

theorem boardGet_boardSet_self (b : Board) (ry cx : Fin 8) (v : Option Piece) :
    boardGet (boardSet b ry cx v) (cx : Int) (ry : Int) = v := by
  rw [boardGet_fin]
  simp [boardSet]

/-! ### Characterization of the sliding walk -/

theorem slide_mem_iff (b : Board) (c : Color) (dx dy : Int) :
    ∀ (fuel : Nat) (sx sy : Int) (t : Int × Int),
    t ∈ slide b c dx dy sx sy fuel ↔
      ∃ k : Nat, k < fuel ∧ t = (sx + k * dx, sy + k * dy) ∧
        (∀ j : Nat, j ≤ k → inB (sx + j * dx) (sy + j * dy)) ∧
        (∀ j : Nat, j < k → boardGet b (sx + j * dx) (sy + j * dy) = none) ∧
        (boardGet b t.1 t.2 = none ∨
          ∃ q, boardGet b t.1 t.2 = some q ∧ q.color ≠ c) := by
  intro fuel
  induction fuel with
  | zero => intro sx sy t; simp [slide]
  | succ n ih =>
    intro sx sy t
    by_cases hin : inB sx sy
    · rcases hcell : boardGet b sx sy with _ | q
      · -- the square is empty: append and walk on
        simp only [slide, if_pos hin, hcell]
        rw [List.mem_cons, ih]
        constructor
        · rintro (rfl | ⟨k, hk, ht, hbnd, hemp, hfin⟩)
          · exact ⟨0, by omega, by simp, by
              intro j hj; interval_cases j; simpa using hin,
              by intro j hj; omega, by simpa using Or.inl hcell⟩
          · refine ⟨k + 1, by omega, ?_, ?_, ?_, hfin⟩
            · rw [ht]; simp only [Prod.mk.injEq]
              refine ⟨by push_cast; ring, by push_cast; ring⟩
            · intro j hj
              match j with
              | 0 => simpa using hin
              | j' + 1 =>
                have := hbnd j' (by omega)
                have hx : sx + (↑(j' + 1)) * dx = sx + dx + (j' : Int) * dx := by
                  push_cast; ring
                have hy : sy + (↑(j' + 1)) * dy = sy + dy + (j' : Int) * dy := by
                  push_cast; ring
                rw [hx, hy]; exact this
            · intro j hj
              match j with
              | 0 => simpa using hcell
              | j' + 1 =>
                have := hemp j' (by omega)
                have hx : sx + (↑(j' + 1)) * dx = sx + dx + (j' : Int) * dx := by
                  push_cast; ring
                have hy : sy + (↑(j' + 1)) * dy = sy + dy + (j' : Int) * dy := by
                  push_cast; ring
                rw [hx, hy]; exact this
        · rintro ⟨k, hk, ht, hbnd, hemp, hfin⟩
          match k with
          | 0 =>
            left; rw [ht]; simp
          | k' + 1 =>
            right
            refine ⟨k', by omega, ?_, ?_, ?_, hfin⟩
            · rw [ht]; simp only [Prod.mk.injEq]
              refine ⟨by push_cast; ring, by push_cast; ring⟩
            · intro j hj
              have := hbnd (j + 1) (by omega)
              have hx : sx + (↑(j + 1)) * dx = sx + dx + (j : Int) * dx := by
                push_cast; ring
              have hy : sy + (↑(j + 1)) * dy = sy + dy + (j : Int) * dy := by
                push_cast; ring
              rw [hx, hy] at this; exact this
            · intro j hj
              have := hemp (j + 1) (by omega)
              have hx : sx + (↑(j + 1)) * dx = sx + dx + (j : Int) * dx := by
                push_cast; ring
              have hy : sy + (↑(j + 1)) * dy = sy + dy + (j : Int) * dy := by
                push_cast; ring
              rw [hx, hy] at this; exact this
      · -- the square is occupied: stop, capture iff opposite color
        simp only [slide, if_pos hin, hcell]
        constructor
        · intro hmem
          rcases hqc : decide (q.color ≠ c) with _ | _
          · rw [if_neg (by simpa using hqc)] at hmem; simp at hmem
          · rw [if_pos (by simpa using hqc)] at hmem
            simp only [List.mem_singleton] at hmem
            subst hmem
            refine ⟨0, by omega, by simp, ?_, by intro j hj; omega, ?_⟩
            · intro j hj; interval_cases j; simpa using hin
            · right; exact ⟨q, by simpa using hcell, by simpa using hqc⟩
        · rintro ⟨k, hk, ht, hbnd, hemp, hfin⟩
          match k with
          | 0 =>
            rw [ht]; simp only [Nat.cast_zero, zero_mul, add_zero] at ht ⊢
            rcases hfin with hnone | ⟨q', hq', hne⟩
            · rw [ht] at hnone; simp only at hnone
              rw [hnone] at hcell; cases hcell
            · rw [ht] at hq'; simp only at hq'
              rw [hq'] at hcell
              injection hcell with h; subst h
              rw [if_pos hne]; simp
          | k' + 1 =>
            have := hemp 0 (by omega)
            simp only [Nat.cast_zero, zero_mul, add_zero] at this
            rw [this] at hcell; cases hcell
    · simp only [slide, if_neg hin]
      constructor
      · intro h; simp at h
      · rintro ⟨k, hk, ht, hbnd, hemp, hfin⟩
        have := hbnd 0 (by omega)
        simp only [Nat.cast_zero, zero_mul, add_zero] at this
        exact absurd this hin

/-- Re-indexing of `slide_mem_iff` for a walk that starts one step away
from `(x, y)`: membership in terms of a step count `k ≥ 1` counted from
the piece's square. -/
theorem mem_slideFrom_iff (b : Board) (c : Color) (dx dy x y : Int)
    (t : Int × Int) :
    t ∈ slide b c dx dy (x + dx) (y + dy) 8 ↔
      ∃ k : Nat, 1 ≤ k ∧ k ≤ 8 ∧ t = (x + k * dx, y + k * dy) ∧
        (∀ j : Nat, 1 ≤ j → j ≤ k → inB (x + j * dx) (y + j * dy)) ∧
        (∀ j : Nat, 1 ≤ j → j < k → boardGet b (x + j * dx) (y + j * dy) = none) ∧
        (boardGet b t.1 t.2 = none ∨
          ∃ q, boardGet b t.1 t.2 = some q ∧ q.color ≠ c) := by
  rw [slide_mem_iff]
  constructor
  · rintro ⟨k, hk, ht, hbnd, hemp, hfin⟩
    refine ⟨k + 1, by omega, by omega, ?_, ?_, ?_, hfin⟩
    · rw [ht]; simp only [Prod.mk.injEq]
      refine ⟨by push_cast; ring, by push_cast; ring⟩
    · intro j h1 h2
      match j, h1 with
      | j' + 1, _ =>
        have := hbnd j' (by omega)
        have hx : x + (↑(j' + 1)) * dx = x + dx + (j' : Int) * dx := by
          push_cast; ring
        have hy : y + (↑(j' + 1)) * dy = y + dy + (j' : Int) * dy := by
          push_cast; ring
        rw [hx, hy]; exact this
    · intro j h1 h2
      match j, h1 with
      | j' + 1, _ =>
        have := hemp j' (by omega)
        have hx : x + (↑(j' + 1)) * dx = x + dx + (j' : Int) * dx := by
          push_cast; ring
        have hy : y + (↑(j' + 1)) * dy = y + dy + (j' : Int) * dy := by
          push_cast; ring
        rw [hx, hy]; exact this
  · rintro ⟨k, hk1, hk8, ht, hbnd, hemp, hfin⟩
    match k, hk1 with
    | k' + 1, _ =>
      refine ⟨k', by omega, ?_, ?_, ?_, hfin⟩
      · rw [ht]; simp only [Prod.mk.injEq]
        refine ⟨by push_cast; ring, by push_cast; ring⟩
      · intro j hj
        have := hbnd (j + 1) (by omega) (by omega)
        have hx : x + (↑(j + 1)) * dx = x + dx + (j : Int) * dx := by
          push_cast; ring
        have hy : y + (↑(j + 1)) * dy = y + dy + (j : Int) * dy := by
          push_cast; ring
        rw [hx, hy] at this; exact this
      · intro j hj
        have := hemp (j + 1) (by omega) (by omega)
        have hx : x + (↑(j + 1)) * dx = x + dx + (j : Int) * dx := by
          push_cast; ring
        have hy : y + (↑(j + 1)) * dy = y + dy + (j : Int) * dy := by
          push_cast; ring
        rw [hx, hy] at this; exact this

/-- For a unit direction and an in-bounds origin, the sliding walk's
membership matches the specification's description: a square `k ≥ 1`
steps along the direction, in bounds, with all squares strictly before it
empty, included iff it is itself empty or holds an opposite-color piece.
The step bound `k ≤ 8` and the in-boundedness of the intermediate squares
are recovered from the geometry. -/
theorem slideFrom_claim (b : Board) (c : Color) (x y dx dy : Int)
    (hdx : dx.natAbs ≤ 1) (hdy : dy.natAbs ≤ 1) (hd0 : ¬(dx = 0 ∧ dy = 0))
    (hpos : inB x y) (t : Int × Int) :
    t ∈ slide b c dx dy (x + dx) (y + dy) 8 ↔
      ∃ k : Nat, 1 ≤ k ∧ t = (x + k * dx, y + k * dy) ∧ inB t.1 t.2 ∧
        (∀ j : Nat, j < k → 1 ≤ j → boardGet b (x + j * dx) (y + j * dy) = none) ∧
        (boardGet b t.1 t.2 = none ∨
          ∃ q, boardGet b t.1 t.2 = some q ∧ q.color ≠ c) := by
  obtain ⟨hx0, hx8, hy0, hy8⟩ := hpos
  rw [mem_slideFrom_iff]
  constructor
  · rintro ⟨k, hk1, hk8, ht, hbnd, hemp, hfin⟩
    refine ⟨k, hk1, ht, ?_, fun j h1 h2 => hemp j h2 h1, hfin⟩
    have := hbnd k hk1 (le_refl k)
    rw [ht]; exact this
  · rintro ⟨k, hk1, ht, hinT, hemp, hfin⟩
    rw [ht] at hinT
    obtain ⟨ht0, ht8, hu0, hu8⟩ := hinT
    simp only at ht0 ht8 hu0 hu8
    have hdx' : -1 ≤ dx ∧ dx ≤ 1 := by omega
    have hdy' : -1 ≤ dy ∧ dy ≤ 1 := by omega
    refine ⟨k, hk1, ?_, ht, ?_, fun j h1 h2 => hemp j h2 h1, hfin⟩
    · obtain ⟨hdxl, hdxr⟩ := hdx'
      obtain ⟨hdyl, hdyr⟩ := hdy'
      interval_cases dx <;> interval_cases dy <;> omega
    · intro j h1 h2
      refine ⟨?_, ?_, ?_, ?_⟩ <;>
        · obtain ⟨hdxl, hdxr⟩ := hdx'
          obtain ⟨hdyl, hdyr⟩ := hdy'
          interval_cases dx <;> interval_cases dy <;> omega

/-! ### Lemmas about pawn moves -/

theorem Pawn.direction_eq (c : Color) : Pawn.direction c = -1 := rfl

/-- Decomposition of membership in a pawn's move list: either the forward
square one rank down (the enum/str comparison makes every pawn move with
direction `-1`) read as empty, or an in-bounds capture diagonal holding an
opposite-color piece. -/
theorem Pawn.mem_moves {p : Piece} {b : Board} {ms : List (Int × Int)}
    (h : Pawn.get_possible_moves p b = .ok ms) {t : Int × Int} (ht : t ∈ ms) :
    (t = (p.position.1, p.position.2 + -1) ∧
      0 ≤ p.position.2 + -1 ∧ p.position.2 + -1 < 8 ∧
      pyGet b p.position.1 (p.position.2 + -1) = .ok none) ∨
    (∃ dx : Int, (dx = -1 ∨ dx = 1) ∧ t = (p.position.1 + dx, p.position.2 + -1) ∧
      inB (p.position.1 + dx) (p.position.2 + -1) ∧
      ∃ q, boardGet b (p.position.1 + dx) (p.position.2 + -1) = some q ∧
        q.color ≠ p.color) := by
  have hdiag : ∀ dx : Int, t ∈ Pawn.diagMoves p b dx →
      t = (p.position.1 + dx, p.position.2 + -1) ∧
      inB (p.position.1 + dx) (p.position.2 + -1) ∧
      ∃ q, boardGet b (p.position.1 + dx) (p.position.2 + -1) = some q ∧
        q.color ≠ p.color := by
    intro dx hmem
    by_cases hin : inB (p.position.1 + dx) (p.position.2 + -1)
    · rcases hq : boardGet b (p.position.1 + dx) (p.position.2 + -1) with _ | q
      · simp [Pawn.diagMoves, Pawn.direction_eq, hin, hq] at hmem
      · simp only [Pawn.diagMoves, Pawn.direction_eq, if_pos hin, hq] at hmem
        by_cases hc : q.color ≠ p.color
        · rw [if_pos hc] at hmem
          simp only [List.mem_singleton] at hmem
          exact ⟨hmem, hin, q, rfl, hc⟩
        · rw [if_neg hc] at hmem; simp at hmem
    · simp [Pawn.diagMoves, Pawn.direction_eq, hin] at hmem
  unfold Pawn.get_possible_moves at h
  rcases hf : Pawn.forwardMoves p b with e | forwards
  · rw [hf] at h; cases h
  · rw [hf] at h
    injection h with h
    subst h
    rcases List.mem_append.1 ht with hta | htd
    · rcases List.mem_append.1 hta with htf | htd
      · -- forward part
        left
        unfold Pawn.forwardMoves at hf
        rw [Pawn.direction_eq] at hf
        by_cases hg : 0 ≤ p.position.2 + -1 ∧ p.position.2 + -1 < 8
        · rw [if_pos hg] at hf
          rcases hp : pyGet b p.position.1 (p.position.2 + -1) with e | o
          · rw [hp] at hf; cases hf
          · rw [hp] at hf
            rcases o with _ | q
            · injection hf with hf
              rw [← hf] at htf
              simp only [List.mem_singleton] at htf
              exact ⟨htf, hg.1, hg.2, rfl⟩

            · injection hf with hf
              rw [← hf] at htf; simp at htf
        · rw [if_neg hg] at hf
          injection hf with hf
          rw [← hf] at htf; simp at htf
      · exact Or.inr ⟨-1, Or.inl rfl, hdiag (-1) htd⟩
    · exact Or.inr ⟨1, Or.inr rfl, hdiag 1 htd⟩

/-! ### Lemmas about sliding-piece moves -/

theorem Rook.mem_rook_moves_iff (p : Piece) (b : Board) (t : Int × Int) :
    t ∈ Rook.get_possible_moves p b ↔
      ∃ d ∈ Rook.directions,
        t ∈ slide b p.color d.1 d.2 (p.position.1 + d.1) (p.position.2 + d.2) 8 := by
  unfold Rook.get_possible_moves
  exact List.mem_flatMap

theorem Bishop.mem_bishop_moves_iff (p : Piece) (b : Board) (t : Int × Int) :
    t ∈ Bishop.get_possible_moves p b ↔
      ∃ d ∈ Bishop.directions,
        t ∈ slide b p.color d.1 d.2 (p.position.1 + d.1) (p.position.2 + d.2) 8 := by
  unfold Bishop.get_possible_moves
  exact List.mem_flatMap

theorem slide_mem_final {b : Board} {c : Color} {dx dy sx sy : Int}
    {fuel : Nat} {t : Int × Int} (h : t ∈ slide b c dx dy sx sy fuel) :
    boardGet b t.1 t.2 = none ∨
      ∃ q, boardGet b t.1 t.2 = some q ∧ q.color ≠ c := by
  obtain ⟨k, _, _, _, _, hfin⟩ := (slide_mem_iff b c dx dy fuel sx sy t).1 h
  exact hfin

/-- A piece stored at a board cell never lists that cell among its own
possible moves: the pawn's forward step requires the cell to be empty and
every capture — pawn diagonal or sliding stop — requires an
opposite-color occupant, while the cell holds the piece itself. -/
theorem selfCell_not_mem {b : Board} {ry cx : Fin 8} {p : Piece}
    {ms : List (Int × Int)} (hb : b ry cx = some p)
    (hm : get_possible_moves p b = .ok ms) :
    ((cx : Int), (ry : Int)) ∉ ms := by
  intro hmem
  have hcell : boardGet b (cx : Int) (ry : Int) = some p := by
    rw [boardGet_fin]; exact hb
  unfold get_possible_moves at hm
  rcases hk : p.kind with _ | _ | _ <;> rw [hk] at hm
  · -- pawn
    rcases Pawn.mem_moves hm hmem with
      ⟨hte, _, _, hfwd⟩ | ⟨dx, _, hte, _, q, hq, hqc⟩
    · have hx : p.position.1 = (cx : Int) := congrArg Prod.fst hte |>.symm
      have hy : p.position.2 + -1 = (ry : Int) := congrArg Prod.snd hte |>.symm
      rw [hx, hy] at hfwd
      have hib : inB (cx : Int) (ry : Int) := by
        refine ⟨by positivity, ?_, by positivity, ?_⟩ <;> exact_mod_cast Fin.is_lt _
      rw [pyGet_eq_boardGet b _ _ hib, hcell] at hfwd
      cases hfwd
    · have hx : p.position.1 + dx = (cx : Int) := congrArg Prod.fst hte |>.symm
      have hy : p.position.2 + -1 = (ry : Int) := congrArg Prod.snd hte |>.symm
      rw [hx, hy, hcell] at hq
      injection hq with hq
      rw [← hq] at hqc
      exact hqc rfl
  · -- rook
    injection hm with hm
    rw [← hm] at hmem
    obtain ⟨d, _, hs⟩ := (Rook.mem_rook_moves_iff p b _).1 hmem
    rcases slide_mem_final hs with hnone | ⟨q, hq, hqc⟩
    · rw [hcell] at hnone; cases hnone
    · rw [hcell] at hq
      injection hq with hq
      rw [← hq] at hqc
      exact hqc rfl
  · -- bishop
    injection hm with hm
    rw [← hm] at hmem
    obtain ⟨d, _, hs⟩ := (Bishop.mem_bishop_moves_iff p b _).1 hmem
    rcases slide_mem_final hs with hnone | ⟨q, hq, hqc⟩
    · rw [hcell] at hnone; cases hnone
    · rw [hcell] at hq
      injection hq with hq
      rw [← hq] at hqc
      exact hqc rfl

/-! ### Concrete pieces and boards used as test inputs -/

/-- The White pawn of the spec scenario "empty Board, White Pawn at (4,1)". -/
def wPawnE2 : Piece := ⟨.pawn, .white, (4, 1)⟩

/-- A White rook standing on a1 = (0,0). -/
def cRook1 : Piece := ⟨.rook, .white, (0, 0)⟩

/-- A Black rook whose position is also (0,0). -/
def cRook2 : Piece := ⟨.rook, .black, (0, 0)⟩

/-- A board holding only `cRook1`, at cell (0,0). -/
def cBoard1 : Board := boardSet emptyBoard 0 0 (some cRook1)

/-! ### Claims -/

/-- C1: the spec requires a White pawn to move toward increasing rank, so a
White pawn at (4,1) on an otherwise empty board must have possible moves
{(4,2)} only.  The code's `direction = 1 if self.color == 'white' else -1`
compares a plain `Enum` member with a `str`, which is always false in
Python, so every pawn — White included — moves toward decreasing rank: at
the spec's own scenario input the code returns [(4,0)], not [(4,2)].  This
theorem evaluates the embedded code at that failing input and records the
constantly-Black direction. -/
theorem C1_pawn_direction_bug_eval :
    Pawn.get_possible_moves wPawnE2 emptyBoard = .ok [(4, 0)] ∧
    Pawn.direction .white = -1 ∧ Pawn.direction .black = -1 :=
  ⟨rfl, rfl, rfl⟩

/-- C2 (counterexample): `place_piece` on a square that already holds a
piece does not fail — placing a second rook at (0,0) on a board whose
(0,0) cell holds `cRook1` succeeds and silently replaces `cRook1`. -/
theorem C2_counterexample :
    ChessBoard.place_piece cBoard1 cRook2 =
      .ok (boardSet cBoard1 0 0 (some cRook2)) ∧
    (boardSet cBoard1 0 0 (some cRook2)) 0 0 = some cRook2 ∧
    cRook2 ≠ cRook1 :=
  ⟨rfl, by decide, by decide⟩

/-- C2 (amended): `place_piece` stores the piece at `piece.position`
unconditionally — for every board and every piece with an in-bounds
position it succeeds, writing the piece into the corresponding cell and
overwriting any piece already there; it never reports an occupied
square. -/
theorem C2_place_always_stores (b : Board) (p : Piece)
    (h : inB p.position.1 p.position.2) :
    ∃ ry cx : Fin 8, (ry : Int) = p.position.2 ∧ (cx : Int) = p.position.1 ∧
      ChessBoard.place_piece b p = .ok (boardSet b ry cx (some p)) := by
  obtain ⟨h1, h2, h3, h4⟩ := h
  refine ⟨⟨p.position.2.toNat, by omega⟩, ⟨p.position.1.toNat, by omega⟩,
    by simp; omega, by simp; omega, ?_⟩
  unfold ChessBoard.place_piece pySet pyIndex
  rw [dif_pos ⟨h3, h4⟩, dif_pos ⟨h1, h2⟩]

/-- C2 (witness for the amended claim): placing `cRook2` on the occupied
board `cBoard1` succeeds and stores it at (0,0). -/
theorem C2_witness :
    ∃ ry cx : Fin 8, (ry : Int) = cRook2.position.2 ∧
      (cx : Int) = cRook2.position.1 ∧
      ChessBoard.place_piece cBoard1 cRook2 =
        .ok (boardSet cBoard1 ry cx (some cRook2)) :=
  C2_place_always_stores cBoard1 cRook2 (by decide)

/-- C3: `move_piece` from an empty square fails with the distinguishable
`noPieceAtSquare` outcome, and `move_piece` to a destination that is not
in the moving piece's possible-move list fails with the distinguishable
`illegalMove` outcome; in both failure cases the returned board is exactly
the input board (every cell, hence every stored piece's position,
unchanged), and the two failure outcomes are distinct values. -/
theorem C3_move_failures (b : Board) (f t : Fin 8 × Fin 8) :
    (b f.2 f.1 = none → ChessBoard.move_piece b f t = (b, .noPieceAtSquare)) ∧
    (∀ p ms, b f.2 f.1 = some p → get_possible_moves p b = .ok ms →
      ((t.1 : Int), (t.2 : Int)) ∉ ms →
      ChessBoard.move_piece b f t = (b, .illegalMove)) ∧
    MoveResult.noPieceAtSquare ≠ MoveResult.illegalMove := by
  refine ⟨?_, ?_, by decide⟩
  · intro h
    unfold ChessBoard.move_piece
    simp only [h]
  · intro p ms hb hm hnot
    unfold ChessBoard.move_piece
    simp only [hb, hm, if_neg hnot]

/-- C3 (witness): on the empty board, moving from (0,0) fails with
`noPieceAtSquare` and leaves the board unchanged. -/
theorem C3_witness :
    ChessBoard.move_piece emptyBoard (0, 0) (1, 1) =
      (emptyBoard, .noPieceAtSquare) :=
  (C3_move_failures emptyBoard (0, 0) (1, 1)).1 rfl

/-- C4: when the source square holds a piece and the destination is in the
piece's possible-move list, `move_piece` reports `moved`, the source cell
becomes empty, the destination cell holds the moved piece with its stored
position updated to the destination (so any piece previously there has
been replaced), and every other cell is unchanged. -/
theorem C4_move_success (b : Board) (f t : Fin 8 × Fin 8) (p : Piece)
    (ms : List (Int × Int)) (hb : b f.2 f.1 = some p)
    (hm : get_possible_moves p b = .ok ms)
    (ht : ((t.1 : Int), (t.2 : Int)) ∈ ms) :
    (ChessBoard.move_piece b f t).2 = .moved ∧
    (ChessBoard.move_piece b f t).1 f.2 f.1 = none ∧
    (ChessBoard.move_piece b f t).1 t.2 t.1 =
      some { p with position := ((t.1 : Int), (t.2 : Int)) } ∧
    ∀ c : Fin 8 × Fin 8, c ≠ f → c ≠ t →
      (ChessBoard.move_piece b f t).1 c.2 c.1 = b c.2 c.1 := by
  have hft : f ≠ t := by
    intro h
    subst h
    exact selfCell_not_mem hb hm ht
  have hmove : ChessBoard.move_piece b f t =
      (boardSet (boardSet b t.2 t.1
          (some { p with position := ((t.1 : Int), (t.2 : Int)) }))
        f.2 f.1 none, .moved) := by
    unfold ChessBoard.move_piece
    simp only [hb, hm, if_pos ht]
  rw [hmove]
  refine ⟨rfl, by simp [boardSet], ?_, ?_⟩
  · have hne : ¬(t.2 = f.2 ∧ t.1 = f.1) := by
      rintro ⟨h2, h1⟩
      exact hft (Prod.ext h1.symm h2.symm)
    simp only [boardSet, if_neg hne]
    simp
  · intro c hcf hct
    have h1 : ¬(c.2 = f.2 ∧ c.1 = f.1) := by
      rintro ⟨h2, h1⟩
      exact hcf (Prod.ext h1 h2)
    have h2 : ¬(c.2 = t.2 ∧ c.1 = t.1) := by
      rintro ⟨h2, h1⟩
      exact hct (Prod.ext h1 h2)
    simp only [boardSet, if_neg h1, if_neg h2]

/-- C4 (witness): moving the rook of `cBoard1` from (0,0) to (0,3) — a
member of its move list — succeeds, empties (0,0) and stores the rook at
(0,3) with updated position. -/
theorem C4_witness :
    (ChessBoard.move_piece cBoard1 (0, 0) (0, 3)).2 = .moved ∧
    (ChessBoard.move_piece cBoard1 (0, 0) (0, 3)).1 0 0 = none ∧
    (ChessBoard.move_piece cBoard1 (0, 0) (0, 3)).1 3 0 =
      some { cRook1 with position := ((0 : Int), (3 : Int)) } :=
  have h := C4_move_success cBoard1 (0, 0) (0, 3) cRook1
    [(1, 0), (2, 0), (3, 0), (4, 0), (5, 0), (6, 0), (7, 0),
     (0, 1), (0, 2), (0, 3), (0, 4), (0, 5), (0, 6), (0, 7)]
    (by decide) rfl (by decide)
  ⟨h.1, h.2.1, h.2.2.1⟩

theorem slide_mem_inB {b : Board} {c : Color} {dx dy sx sy : Int}
    {fuel : Nat} {t : Int × Int} (h : t ∈ slide b c dx dy sx sy fuel) :
    inB t.1 t.2 := by
  obtain ⟨k, _, ht, hbnd, _, _⟩ := (slide_mem_iff b c dx dy fuel sx sy t).1 h
  have := hbnd k le_rfl
  rw [ht]
  exact this

/-- C5: for rooks (orthogonal directions) and bishops (diagonal
directions) at an in-bounds position, membership in the move list is
exactly: some direction `d` of the piece's direction list and some step
count `k ≥ 1` with the target `k` steps along `d`, in bounds, every
square strictly before it (steps `1..k-1`) empty, and the target square
itself either empty or holding an opposite-color piece — so every empty
square up to the first blocker is included, the first blocker is included
iff opposite-colored, and nothing at or beyond a same-color blocker nor
beyond an opposite-color blocker appears. -/
theorem C5_sliding_characterization (p : Piece) (b : Board)
    (hpos : inB p.position.1 p.position.2) :
    (∀ t : Int × Int, t ∈ Rook.get_possible_moves p b ↔
      ∃ d ∈ Rook.directions, ∃ k : Nat, 1 ≤ k ∧
        t = (p.position.1 + k * d.1, p.position.2 + k * d.2) ∧ inB t.1 t.2 ∧
        (∀ j : Nat, j < k → 1 ≤ j →
          boardGet b (p.position.1 + j * d.1) (p.position.2 + j * d.2) = none) ∧
        (boardGet b t.1 t.2 = none ∨
          ∃ q, boardGet b t.1 t.2 = some q ∧ q.color ≠ p.color)) ∧
    (∀ t : Int × Int, t ∈ Bishop.get_possible_moves p b ↔
      ∃ d ∈ Bishop.directions, ∃ k : Nat, 1 ≤ k ∧
        t = (p.position.1 + k * d.1, p.position.2 + k * d.2) ∧ inB t.1 t.2 ∧
        (∀ j : Nat, j < k → 1 ≤ j →
          boardGet b (p.position.1 + j * d.1) (p.position.2 + j * d.2) = none) ∧
        (boardGet b t.1 t.2 = none ∨
          ∃ q, boardGet b t.1 t.2 = some q ∧ q.color ≠ p.color)) := by
  constructor
  · intro t
    rw [Rook.mem_rook_moves_iff]
    apply exists_congr
    intro d
    apply and_congr_right
    intro hd
    have hside : d.1.natAbs ≤ 1 ∧ d.2.natAbs ≤ 1 ∧ ¬(d.1 = 0 ∧ d.2 = 0) := by
      fin_cases hd <;> decide
    exact slideFrom_claim b p.color p.position.1 p.position.2 d.1 d.2
      hside.1 hside.2.1 hside.2.2 hpos t
  · intro t
    rw [Bishop.mem_bishop_moves_iff]
    apply exists_congr
    intro d
    apply and_congr_right
    intro hd
    have hside : d.1.natAbs ≤ 1 ∧ d.2.natAbs ≤ 1 ∧ ¬(d.1 = 0 ∧ d.2 = 0) := by
      fin_cases hd <;> decide
    exact slideFrom_claim b p.color p.position.1 p.position.2 d.1 d.2
      hside.1 hside.2.1 hside.2.2 hpos t

/-- C5 (witness): for the rook of `cBoard1` at (0,0) on its otherwise
empty board, the characterization yields membership of (0,3): direction
(0,1), three steps, squares (0,1) and (0,2) empty, (0,3) empty. -/
theorem C5_witness :
    ((0 : Int), (3 : Int)) ∈ Rook.get_possible_moves cRook1 cBoard1 :=
  ((C5_sliding_characterization cRook1 cBoard1 (by decide)).1
      ((0 : Int), (3 : Int))).mpr
    ⟨(0, 1), by decide, 3, by decide, by decide, by decide,
      by intro j h1 h2; interval_cases j <;> decide, by decide⟩

/-- C8: for a pawn, rook or bishop at an in-bounds position, every square
in the computed move list is in bounds (0–7 on both axes): the pawn's
forward square keeps the file and has a guarded rank, its capture
diagonals are fully guarded, and the sliding walk only visits guarded
squares. -/
theorem C8_moves_in_bounds (p : Piece) (b : Board) (ms : List (Int × Int))
    (hpos : inB p.position.1 p.position.2)
    (hm : get_possible_moves p b = .ok ms) :
    ∀ t ∈ ms, inB t.1 t.2 := by
  intro t ht
  unfold get_possible_moves at hm
  rcases hk : p.kind with _ | _ | _ <;> rw [hk] at hm
  · rcases Pawn.mem_moves hm ht with
      ⟨hte, hg1, hg2, _⟩ | ⟨dx, _, hte, hin, _⟩
    · rw [hte]
      exact ⟨hpos.1, hpos.2.1, hg1, hg2⟩
    · rw [hte]
      exact hin
  · injection hm with hm
    rw [← hm] at ht
    obtain ⟨d, _, hs⟩ := (Rook.mem_rook_moves_iff p b t).1 ht
    exact slide_mem_inB hs
  · injection hm with hm
    rw [← hm] at ht
    obtain ⟨d, _, hs⟩ := (Bishop.mem_bishop_moves_iff p b t).1 ht
    exact slide_mem_inB hs

/-- C8 (witness): the first move of the rook of `cBoard1` is in bounds. -/
theorem C8_witness : inB (1 : Int) (0 : Int) :=
  C8_moves_in_bounds cRook1 cBoard1
    [(1, 0), (2, 0), (3, 0), (4, 0), (5, 0), (6, 0), (7, 0),
     (0, 1), (0, 2), (0, 3), (0, 4), (0, 5), (0, 6), (0, 7)]
    (by decide) rfl ((1 : Int), (0 : Int)) (by decide)

/-- C10: a piece's own position is never an element of its computed move
list (the pawn always changes rank, the sliding walk starts one square
away and moves strictly outward), and consequently `move_piece` with
equal source and destination always fails — with `noPieceAtSquare`,
`illegalMove`, or a propagated exception — and returns the board
unchanged. -/
theorem C10_no_self_move :
    (∀ (p : Piece) (b : Board) (ms : List (Int × Int)),
      inB p.position.1 p.position.2 → get_possible_moves p b = .ok ms →
      p.position ∉ ms) ∧
    (∀ (b : Board) (q : Fin 8 × Fin 8),
      (ChessBoard.move_piece b q q).1 = b ∧
      (ChessBoard.move_piece b q q).2 ≠ .moved) := by
  constructor
  · intro p b ms hpos hm hmem
    unfold get_possible_moves at hm
    rcases hk : p.kind with _ | _ | _ <;> rw [hk] at hm
    · rcases Pawn.mem_moves hm hmem with ⟨hte, _⟩ | ⟨dx, hdx, hte, _⟩
      · have h2 := congrArg Prod.snd hte
        simp only at h2
        omega
      · have h2 := congrArg Prod.snd hte
        simp only at h2
        omega
    · injection hm with hm
      rw [← hm] at hmem
      obtain ⟨d, hd, hs⟩ := (Rook.mem_rook_moves_iff p b _).1 hmem
      obtain ⟨k, hk1, hk8, hte, _, _, _⟩ :=
        (mem_slideFrom_iff b p.color d.1 d.2 p.position.1 p.position.2
          p.position).1 hs
      have h1 := congrArg Prod.fst hte
      have h2 := congrArg Prod.snd hte
      simp only at h1 h2
      fin_cases hd <;> simp at h1 h2 <;> omega
    · injection hm with hm
      rw [← hm] at hmem
      obtain ⟨d, hd, hs⟩ := (Bishop.mem_bishop_moves_iff p b _).1 hmem
      obtain ⟨k, hk1, hk8, hte, _, _, _⟩ :=
        (mem_slideFrom_iff b p.color d.1 d.2 p.position.1 p.position.2
          p.position).1 hs
      have h1 := congrArg Prod.fst hte
      have h2 := congrArg Prod.snd hte
      simp only at h1 h2
      fin_cases hd <;> simp at h1 h2 <;> omega
  · intro b q
    rcases hb : b q.2 q.1 with _ | p
    · have h : ChessBoard.move_piece b q q = (b, .noPieceAtSquare) := by
        unfold ChessBoard.move_piece
        simp only [hb]
      rw [h]
      exact ⟨rfl, by simp⟩
    · rcases hm : get_possible_moves p b with e | ms
      · have h : ChessBoard.move_piece b q q = (b, .raised e) := by
          unfold ChessBoard.move_piece
          simp only [hb, hm]
        rw [h]
        exact ⟨rfl, by simp⟩
      · have hnot : ((q.1 : Int), (q.2 : Int)) ∉ ms := selfCell_not_mem hb hm
        have h : ChessBoard.move_piece b q q = (b, .illegalMove) := by
          unfold ChessBoard.move_piece
          simp only [hb, hm, if_neg hnot]
        rw [h]
        exact ⟨rfl, by simp⟩

/-- C10 (witness): the spec-scenario pawn's own position is not among its
moves. -/
theorem C10_witness : wPawnE2.position ∉ [((4 : Int), (0 : Int))] :=
  C10_no_self_move.1 wPawnE2 emptyBoard [((4 : Int), (0 : Int))]
    (by decide) rfl

/-- A pawn constructed with the out-of-bounds position (-1, 0); the
source's constructor validates only the color, never the position. -/
def negPawn : Piece := ⟨.pawn, .white, (-1, 0)⟩

/-- C9 (counterexample): `place_piece` is itself one of the claim's
operations, and placing a piece whose position is (-1, 0) on the empty
board succeeds — Python's negative list indexing wraps `board[0][-1]` to
column 7 — leaving a grid whose cell (file 7, rank 0) holds a piece whose
`position` field is (-1, 0), so the stored position does not equal the
cell index. -/
theorem C9_counterexample :
    ChessBoard.place_piece emptyBoard negPawn =
      .ok (boardSet emptyBoard 0 7 (some negPawn)) ∧
    (boardSet emptyBoard 0 7 (some negPawn)) 0 7 = some negPawn ∧
    negPawn.position ≠ ((7 : Int), (0 : Int)) :=
  ⟨rfl, by decide, by decide⟩

/-- C9 (amended): restricting placements to pieces with in-bounds
positions — the only restriction the counterexample forces — every board
reachable from the empty board by `place_piece` and `move_piece` stores
each piece at the cell named by its `position` field, and consequently no
piece value occupies two distinct cells. -/
theorem C9_reachable_invariant (b : Board) (hr : Reachable b) :
    (∀ (ry cx : Fin 8) (p : Piece), b ry cx = some p →
      p.position = ((cx : Int), (ry : Int))) ∧
    (∀ (r1 c1 r2 c2 : Fin 8) (p : Piece), b r1 c1 = some p →
      b r2 c2 = some p → r1 = r2 ∧ c1 = c2) := by
  have hsync : ∀ (ry cx : Fin 8) (p : Piece), b ry cx = some p →
      p.position = ((cx : Int), (ry : Int)) := by
    induction hr with
    | empty =>
      intro ry cx p h
      simp [emptyBoard] at h
    | place hb hin hplace ih =>
      rename_i b0 b' p0
      obtain ⟨h1, h2, h3, h4⟩ := hin
      unfold ChessBoard.place_piece pySet pyIndex at hplace
      rw [dif_pos ⟨h3, h4⟩, dif_pos ⟨h1, h2⟩] at hplace
      injection hplace with hplace
      intro ry cx q hq
      rw [← hplace] at hq
      unfold boardSet at hq
      by_cases hc : ry = (⟨p0.position.2.toNat, by omega⟩ : Fin 8) ∧
          cx = (⟨p0.position.1.toNat, by omega⟩ : Fin 8)
      · rw [if_pos hc] at hq
        injection hq with hq
        rw [← hq, hc.1, hc.2]
        have e1 : ((⟨p0.position.1.toNat, by omega⟩ : Fin 8) : Int) =
            p0.position.1 := by simp; omega
        have e2 : ((⟨p0.position.2.toNat, by omega⟩ : Fin 8) : Int) =
            p0.position.2 := by simp; omega
        rw [e1, e2]
      · rw [if_neg hc] at hq
        exact ih ry cx q hq
    | move fromP toP hb ih =>
      rename_i b0
      rcases hcell : b0 fromP.2 fromP.1 with _ | p0
      · have h : ChessBoard.move_piece b0 fromP toP = (b0, .noPieceAtSquare) := by
          unfold ChessBoard.move_piece
          simp only [hcell]
        rw [h]
        exact ih
      · rcases hm : get_possible_moves p0 b0 with e | ms
        · have h : ChessBoard.move_piece b0 fromP toP = (b0, .raised e) := by
            unfold ChessBoard.move_piece
            simp only [hcell, hm]
          rw [h]
          exact ih
        · by_cases hmem : ((toP.1 : Int), (toP.2 : Int)) ∈ ms
          · have h : ChessBoard.move_piece b0 fromP toP =
                (boardSet (boardSet b0 toP.2 toP.1
                    (some { p0 with position := ((toP.1 : Int), (toP.2 : Int)) }))
                  fromP.2 fromP.1 none, .moved) := by
              unfold ChessBoard.move_piece
              simp only [hcell, hm, if_pos hmem]
            rw [h]
            intro ry cx q hq
            simp only [boardSet] at hq
            by_cases hf : ry = fromP.2 ∧ cx = fromP.1
            · rw [if_pos hf] at hq
              cases hq
            · rw [if_neg hf] at hq
              by_cases ht : ry = toP.2 ∧ cx = toP.1
              · rw [if_pos ht] at hq
                injection hq with hq
                rw [← hq, ht.1, ht.2]
              · rw [if_neg ht] at hq
                exact ih ry cx q hq
          · have h : ChessBoard.move_piece b0 fromP toP = (b0, .illegalMove) := by
              unfold ChessBoard.move_piece
              simp only [hcell, hm, if_neg hmem]
            rw [h]
            exact ih
  refine ⟨hsync, ?_⟩
  intro r1 c1 r2 c2 p hp1 hp2
  have e1 := hsync r1 c1 p hp1
  have e2 := hsync r2 c2 p hp2
  rw [e1] at e2
  have hc := congrArg Prod.fst e2
  have hrr := congrArg Prod.snd e2
  simp only at hc hrr
  constructor
  · apply Fin.ext
    exact_mod_cast hrr
  · apply Fin.ext
    exact_mod_cast hc

/-- C9 (witness for the amended claim): the board holding only `cRook1`,
reached by one in-bounds placement, satisfies the stored-position
invariant at its occupied cell. -/
theorem C9_witness : cRook1.position = ((0 : Int), (0 : Int)) :=
  (C9_reachable_invariant cBoard1
      (@Reachable.place emptyBoard cBoard1 cRook1 Reachable.empty
        (by decide) rfl)).1 0 0 cRook1 (by decide)

/-! ### Lemmas about the attack path walk -/

/-- Evaluation of the `is_path_clear` loop when the target is exactly `n`
steps ahead of the start and every square strictly before the target is in
bounds: the loop terminates (no exception) and returns `true` iff all
those squares are empty. -/
theorem isPathClearGo_spec (b : Board) (x y dx dy : Int) :
    ∀ (n fuel : Nat) (cx cy : Int), n < fuel →
    x = cx + n * dx → y = cy + n * dy →
    (¬(dx = 0 ∧ dy = 0) ∨ n = 0) →
    (∀ j : Nat, j < n → inB (cx + j * dx) (cy + j * dy)) →
    isPathClearGo b x y dx dy cx cy fuel =
      .ok (decide (∀ j : Nat, j < n →
        boardGet b (cx + j * dx) (cy + j * dy) = none)) := by
  intro n
  induction n with
  | zero =>
    intro fuel cx cy hf hx hy _ _
    match fuel, hf with
    | f + 1, _ =>
      have he : (cx, cy) = (x, y) := by
        simp only [Nat.cast_zero, zero_mul, add_zero] at hx hy
        rw [hx, hy]
      simp only [isPathClearGo, if_pos he]
      have hP : ∀ j : Nat, j < 0 →
          boardGet b (cx + j * dx) (cy + j * dy) = none :=
        fun j h => absurd h (Nat.not_lt_zero j)
      rw [decide_eq_true hP]
  | succ n ih =>
    intro fuel cx cy hf hx hy hnz hbnd
    match fuel, hf with
    | f + 1, hf =>
      have hnz' : ¬(dx = 0 ∧ dy = 0) := by
        rcases hnz with h | h
        · exact h
        · exact absurd h (Nat.succ_ne_zero n)
      have hne : (cx, cy) ≠ (x, y) := by
        intro he
        have h1 := congrArg Prod.fst he
        have h2 := congrArg Prod.snd he
        simp only at h1 h2
        apply hnz'
        constructor
        · rw [h1] at hx
          have h3 : ((n + 1 : Nat) : Int) * dx = 0 := by linarith
          rcases mul_eq_zero.1 h3 with h | h
          · exfalso
            have : ((n + 1 : Nat) : Int) > 0 := by positivity
            omega
          · exact h
        · rw [h2] at hy
          have h3 : ((n + 1 : Nat) : Int) * dy = 0 := by linarith
          rcases mul_eq_zero.1 h3 with h | h
          · exfalso
            have : ((n + 1 : Nat) : Int) > 0 := by positivity
            omega
          · exact h
      simp only [isPathClearGo, if_neg hne]
      have hin0 : inB cx cy := by
        have := hbnd 0 (Nat.succ_pos n)
        simpa using this
      rw [pyGet_eq_boardGet b cx cy hin0]
      rcases hcell : boardGet b cx cy with _ | q
      · have hx' : x = (cx + dx) + (n : Int) * dx := by rw [hx]; push_cast; ring
        have hy' : y = (cy + dy) + (n : Int) * dy := by rw [hy]; push_cast; ring
        have hbnd' : ∀ j : Nat, j < n →
            inB ((cx + dx) + j * dx) ((cy + dy) + j * dy) := by
          intro j hj
          have h := hbnd (j + 1) (by omega)
          push_cast at h
          have e1 : cx + ((j : Int) + 1) * dx = cx + dx + (j : Int) * dx := by
            ring
          have e2 : cy + ((j : Int) + 1) * dy = cy + dy + (j : Int) * dy := by
            ring
          rw [e1, e2] at h
          exact h
        have hrec := ih f (cx + dx) (cy + dy) (by omega) hx' hy'
          (Or.inl hnz') hbnd'
        simp only [hrec]
        congr 1
        rw [decide_eq_decide]
        constructor
        · intro hall j hj
          match j, hj with
          | 0, _ => simpa using hcell
          | j' + 1, hj =>
            have h := hall j' (by omega)
            push_cast
            have e1 : cx + ((j' : Int) + 1) * dx = cx + dx + (j' : Int) * dx := by
              ring
            have e2 : cy + ((j' : Int) + 1) * dy = cy + dy + (j' : Int) * dy := by
              ring
            rw [e1, e2]
            exact h
        · intro hall j hj
          have h := hall (j + 1) (by omega)
          push_cast at h
          have e1 : cx + ((j : Int) + 1) * dx = cx + dx + (j : Int) * dx := by
            ring
          have e2 : cy + ((j : Int) + 1) * dy = cy + dy + (j : Int) * dy := by
            ring
          rw [e1, e2] at h
          exact h
      · simp only []
        have hnp : ¬(∀ j : Nat, j < n + 1 →
            boardGet b (cx + j * dx) (cy + j * dy) = none) := by
          intro hP
          have := hP 0 (Nat.succ_pos n)
          simp only [Nat.cast_zero, zero_mul, add_zero] at this
          rw [this] at hcell
          cases hcell
        rw [decide_eq_false hnp]

/-- Evaluation of the attack tail when the path walk has already been
computed: an in-bounds target read yields the occupant test, guarded by
the path result. -/
theorem attackTail_ok (p : Piece) (b : Board) (x y : Int) (htgt : inB x y)
    (A P : Prop) [Decidable A] [Decidable P] (hAP : A ↔ P) :
    attackTail p b x y (.ok (decide A)) =
      .ok (decide (P ∧ ∃ q, boardGet b x y = some q ∧ q.color ≠ p.color)) := by
  by_cases hA : A
  · rw [decide_eq_true hA]
    unfold attackTail
    rw [pyGet_eq_boardGet b x y htgt]
    rcases hcell : boardGet b x y with _ | t
    · simp only []
      have hd : decide (P ∧ ∃ q, (none : Option Piece) = some q ∧
          q.color ≠ p.color) = false := by
        apply decide_eq_false
        rintro ⟨-, q, hq, -⟩
        cases hq
      rw [hd]
    · simp only []
      congr 1
      rw [decide_eq_decide]
      constructor
      · intro hc
        exact ⟨hAP.1 hA, t, rfl, hc⟩
      · rintro ⟨-, q, hq, hqc⟩
        injection hq with hq
        rw [hq]
        exact hqc
  · rw [decide_eq_false hA]
    unfold attackTail
    simp only []
    have hd : decide (P ∧ ∃ q, boardGet b x y = some q ∧
        q.color ≠ p.color) = false :=
      decide_eq_false fun hPE => hA (hAP.2 hPE.1)
    rw [hd]

/-- Evaluation of the whole path-then-target tail of `can_attack` for a
target that is exactly `m` unit steps along `(dx, dy)` from the piece,
with all strictly-intermediate squares in bounds: no exception is raised
and the result is `true` iff all strictly-intermediate squares are empty
and the target holds an opposite-color piece.  The degenerate own-square
configuration (`m = 0`) is covered only for the zero direction, which is
exactly how `Rook.can_attack` reaches it. -/
theorem attackTail_spec (p : Piece) (b : Board) (x y dx dy : Int) (m : Nat)
    (hm32 : m ≤ 32)
    (hx : x = p.position.1 + m * dx) (hy : y = p.position.2 + m * dy)
    (hcase : (¬(dx = 0 ∧ dy = 0) ∧ 1 ≤ m) ∨ (dx = 0 ∧ dy = 0 ∧ m = 0))
    (hbnd : ∀ j : Nat, 1 ≤ j → j < m →
      inB (p.position.1 + j * dx) (p.position.2 + j * dy))
    (htgt : inB x y) :
    attackTail p b x y (is_path_clear p b x y dx dy) =
      .ok (decide ((∀ j : Nat, j < m → 1 ≤ j →
          boardGet b (p.position.1 + j * dx) (p.position.2 + j * dy) = none) ∧
        ∃ q, boardGet b x y = some q ∧ q.color ≠ p.color)) := by
  rcases hcase with ⟨hnz, hm1⟩ | ⟨hdx0, hdy0, hm0⟩
  · match m, hm1 with
    | m' + 1, _ =>
      have hx' : x = (p.position.1 + dx) + (m' : Int) * dx := by
        rw [hx]; push_cast; ring
      have hy' : y = (p.position.2 + dy) + (m' : Int) * dy := by
        rw [hy]; push_cast; ring
      have hbnd' : ∀ j : Nat, j < m' →
          inB ((p.position.1 + dx) + j * dx) ((p.position.2 + dy) + j * dy) := by
        intro j hj
        have h := hbnd (j + 1) (by omega) (by omega)
        push_cast at h
        have e1 : p.position.1 + ((j : Int) + 1) * dx =
            p.position.1 + dx + (j : Int) * dx := by ring
        have e2 : p.position.2 + ((j : Int) + 1) * dy =
            p.position.2 + dy + (j : Int) * dy := by ring
        rw [e1, e2] at h
        exact h
      have hpath := isPathClearGo_spec b x y dx dy m' 64
        (p.position.1 + dx) (p.position.2 + dy) (by omega) hx' hy'
        (Or.inl hnz) hbnd'
      have hshift : (∀ j : Nat, j < m' →
          boardGet b ((p.position.1 + dx) + j * dx)
            ((p.position.2 + dy) + j * dy) = none) ↔
          (∀ j : Nat, j < m' + 1 → 1 ≤ j →
            boardGet b (p.position.1 + j * dx)
              (p.position.2 + j * dy) = none) := by
        constructor
        · intro h j hj hj1
          match j, hj1 with
          | j' + 1, _ =>
            have hh := h j' (by omega)
            push_cast
            have e1 : p.position.1 + ((j' : Int) + 1) * dx =
                p.position.1 + dx + (j' : Int) * dx := by ring
            have e2 : p.position.2 + ((j' : Int) + 1) * dy =
                p.position.2 + dy + (j' : Int) * dy := by ring
            rw [e1, e2]
            exact hh
        · intro h j hj
          have hh := h (j + 1) (by omega) (by omega)
          push_cast at hh
          have e1 : p.position.1 + ((j : Int) + 1) * dx =
              p.position.1 + dx + (j : Int) * dx := by ring
          have e2 : p.position.2 + ((j : Int) + 1) * dy =
              p.position.2 + dy + (j : Int) * dy := by ring
          rw [e1, e2] at hh
          exact hh
      unfold is_path_clear
      rw [hpath]
      exact attackTail_ok p b x y htgt _ _ hshift
  · subst hdx0
    subst hdy0
    subst hm0
    have hx0 : x = p.position.1 := by simpa using hx
    have hy0 : y = p.position.2 := by simpa using hy
    have hpath := isPathClearGo_spec b x y 0 0 0 64
      (p.position.1 + 0) (p.position.2 + 0) (by omega)
      (by rw [hx0]; push_cast; ring) (by rw [hy0]; push_cast; ring)
      (Or.inr rfl) (by intro j hj; omega)
    have hvac : decide (∀ j : Nat, j < 0 →
        boardGet b (p.position.1 + 0 + j * 0)
          (p.position.2 + 0 + j * 0) = none) = true :=
      decide_eq_true fun j h => absurd h (Nat.not_lt_zero j)
    rw [hvac] at hpath
    have htriv : True ↔ (∀ j : Nat, j < 0 → 1 ≤ j →
        boardGet b (p.position.1 + j * (0 : Int))
          (p.position.2 + j * (0 : Int)) = none) := by
      constructor
      · intro _ j hj
        exact absurd hj (Nat.not_lt_zero j)
      · intro _
        trivial
    unfold is_path_clear
    rw [hpath]
    have := attackTail_ok p b x y htgt True _ htriv
    rw [decide_eq_true trivial] at this
    exact this

/-! ### The specification's attack predicates -/

/-- The spec's "every square strictly between source and target is
empty", for a source and target on a common orthogonal or diagonal line:
the squares one unit-sign step at a time from the source, strictly before
the target. -/
def betweenEmpty (b : Board) (sx sy tx ty : Int) : Prop :=
  ∀ j : Nat, j < max (tx - sx).natAbs (ty - sy).natAbs → 1 ≤ j →
    boardGet b (sx + j * (tx - sx).sign) (sy + j * (ty - sy).sign) = none

instance (b : Board) (sx sy tx ty : Int) :
    Decidable (betweenEmpty b sx sy tx ty) := by
  unfold betweenEmpty
  infer_instance

/-- The spec's attack condition for a rook: the target lies on an
orthogonal line through the piece, every square strictly between is
empty, and the target cell holds an opposite-color piece. -/
def rookAttackSpec (p : Piece) (b : Board) (x y : Int) : Prop :=
  (x = p.position.1 ∨ y = p.position.2) ∧
  betweenEmpty b p.position.1 p.position.2 x y ∧
  ∃ q, boardGet b x y = some q ∧ q.color ≠ p.color

instance (p : Piece) (b : Board) (x y : Int) :
    Decidable (rookAttackSpec p b x y) := by
  unfold rookAttackSpec
  infer_instance

/-- The spec's attack condition for a bishop: the target lies on a
diagonal through the piece, every square strictly between is empty, and
the target cell holds an opposite-color piece. -/
def bishopAttackSpec (p : Piece) (b : Board) (x y : Int) : Prop :=
  (x - p.position.1).natAbs = (y - p.position.2).natAbs ∧
  betweenEmpty b p.position.1 p.position.2 x y ∧
  ∃ q, boardGet b x y = some q ∧ q.color ≠ p.color

instance (p : Piece) (b : Board) (x y : Int) :
    Decidable (bishopAttackSpec p b x y) := by
  unfold bishopAttackSpec
  infer_instance

/-- `attackTail_spec` restated against `betweenEmpty`, for steps that are
the coordinate-difference signs and a step count that is the larger
coordinate distance. -/
theorem attack_spec_bridge (p : Piece) (b : Board) (x y dx dy : Int)
    (m : Nat) (hm32 : m ≤ 32)
    (hx : x = p.position.1 + m * dx) (hy : y = p.position.2 + m * dy)
    (hcase : (¬(dx = 0 ∧ dy = 0) ∧ 1 ≤ m) ∨ (dx = 0 ∧ dy = 0 ∧ m = 0))
    (hbnd : ∀ j : Nat, 1 ≤ j → j < m →
      inB (p.position.1 + j * dx) (p.position.2 + j * dy))
    (htgt : inB x y)
    (hs1 : (x - p.position.1).sign = dx) (hs2 : (y - p.position.2).sign = dy)
    (hmax : max (x - p.position.1).natAbs (y - p.position.2).natAbs = m) :
    attackTail p b x y (is_path_clear p b x y dx dy) =
      .ok (decide (betweenEmpty b p.position.1 p.position.2 x y ∧
        ∃ q, boardGet b x y = some q ∧ q.color ≠ p.color)) := by
  rw [attackTail_spec p b x y dx dy m hm32 hx hy hcase hbnd htgt]
  congr 1
  rw [decide_eq_decide]
  unfold betweenEmpty
  rw [hs1, hs2, hmax]

/-- For in-bounds piece position and target, `Rook.can_attack` returns —
without raising — exactly the spec's rook attack condition. -/
theorem Rook.rook_attack_eval (p : Piece) (b : Board) (x y : Int)
    (hpos : inB p.position.1 p.position.2) (htgt : inB x y) :
    Rook.can_attack p b x y = .ok (decide (rookAttackSpec p b x y)) := by
  obtain ⟨hp1, hp2, hp3, hp4⟩ := hpos
  obtain ⟨ht1, ht2, ht3, ht4⟩ := htgt
  simp only [Rook.can_attack]
  by_cases hne : x ≠ p.position.1 ∧ y ≠ p.position.2
  · rw [if_pos hne]
    have hd : decide (rookAttackSpec p b x y) = false := by
      apply decide_eq_false
      rintro ⟨hal, -, -⟩
      rcases hal with h | h
      · exact hne.1 h
      · exact hne.2 h
    rw [hd]
  · rw [if_neg hne]
    by_cases hxe : x = p.position.1
    · by_cases hye : y = p.position.2
      · rw [if_pos hxe, if_pos hye]
        rw [attack_spec_bridge p b x y 0 0 0 (by omega)
          (by rw [hxe]; push_cast; ring) (by rw [hye]; push_cast; ring)
          (Or.inr ⟨rfl, rfl, rfl⟩) (by intro j h1 h2; omega)
          ⟨ht1, ht2, ht3, ht4⟩ (by rw [hxe]; simp) (by rw [hye]; simp)
          (by omega)]
        congr 1
        rw [decide_eq_decide]
        constructor
        · rintro ⟨hB, hE⟩
          exact ⟨Or.inl hxe, hB, hE⟩
        · rintro ⟨-, hB, hE⟩
          exact ⟨hB, hE⟩
      · rw [if_pos hxe, if_neg hye]
        by_cases hgt : y > p.position.2
        · rw [if_pos hgt]
          have hc : (((y - p.position.2).toNat : Nat) : Int) =
              y - p.position.2 := Int.toNat_of_nonneg (by omega)
          rw [attack_spec_bridge p b x y 0 1 (y - p.position.2).toNat
            (by omega) (by rw [hxe]; ring) (by rw [hc]; ring)
            (Or.inl ⟨by simp, by omega⟩)
            (by intro j h1 h2; refine ⟨?_, ?_, ?_, ?_⟩ <;> omega)
            ⟨ht1, ht2, ht3, ht4⟩ (by rw [hxe]; simp)
            (Int.sign_eq_one_of_pos (by omega)) (by omega)]
          congr 1
          rw [decide_eq_decide]
          constructor
          · rintro ⟨hB, hE⟩
            exact ⟨Or.inl hxe, hB, hE⟩
          · rintro ⟨-, hB, hE⟩
            exact ⟨hB, hE⟩
        · rw [if_neg hgt]
          have hc : (((p.position.2 - y).toNat : Nat) : Int) =
              p.position.2 - y := Int.toNat_of_nonneg (by omega)
          rw [attack_spec_bridge p b x y 0 (-1) (p.position.2 - y).toNat
            (by omega) (by rw [hxe]; ring) (by rw [hc]; ring)
            (Or.inl ⟨by simp, by omega⟩)
            (by intro j h1 h2; refine ⟨?_, ?_, ?_, ?_⟩ <;> omega)
            ⟨ht1, ht2, ht3, ht4⟩ (by rw [hxe]; simp)
            (Int.sign_eq_neg_one_of_neg (by omega)) (by omega)]
          congr 1
          rw [decide_eq_decide]
          constructor
          · rintro ⟨hB, hE⟩
            exact ⟨Or.inl hxe, hB, hE⟩
          · rintro ⟨-, hB, hE⟩
            exact ⟨hB, hE⟩
    · have hye : y = p.position.2 := by
        rcases not_and_or.1 hne with h | h
        · exact absurd (not_not.1 h) hxe
        · exact not_not.1 h
      rw [if_neg hxe, if_pos hye]
      by_cases hgt : x > p.position.1
      · rw [if_pos hgt]
        have hc : (((x - p.position.1).toNat : Nat) : Int) =
            x - p.position.1 := Int.toNat_of_nonneg (by omega)
        rw [attack_spec_bridge p b x y 1 0 (x - p.position.1).toNat
          (by omega) (by rw [hc]; ring) (by rw [hye]; ring)
          (Or.inl ⟨by simp, by omega⟩)
          (by intro j h1 h2; refine ⟨?_, ?_, ?_, ?_⟩ <;> omega)
          ⟨ht1, ht2, ht3, ht4⟩ (Int.sign_eq_one_of_pos (by omega))
          (by rw [hye]; simp) (by omega)]
        congr 1
        rw [decide_eq_decide]
        constructor
        · rintro ⟨hB, hE⟩
          exact ⟨Or.inr hye, hB, hE⟩
        · rintro ⟨-, hB, hE⟩
          exact ⟨hB, hE⟩
      · rw [if_neg hgt]
        have hc : (((p.position.1 - x).toNat : Nat) : Int) =
            p.position.1 - x := Int.toNat_of_nonneg (by omega)
        rw [attack_spec_bridge p b x y (-1) 0 (p.position.1 - x).toNat
          (by omega) (by rw [hc]; ring) (by rw [hye]; ring)
          (Or.inl ⟨by simp, by omega⟩)
          (by intro j h1 h2; refine ⟨?_, ?_, ?_, ?_⟩ <;> omega)
          ⟨ht1, ht2, ht3, ht4⟩ (Int.sign_eq_neg_one_of_neg (by omega))
          (by rw [hye]; simp) (by omega)]
        congr 1
        rw [decide_eq_decide]
        constructor
        · rintro ⟨hB, hE⟩
          exact ⟨Or.inr hye, hB, hE⟩
        · rintro ⟨-, hB, hE⟩
          exact ⟨hB, hE⟩

/-- For in-bounds piece position and target distinct from the piece's own
square, `Bishop.can_attack` returns — without raising — exactly the
spec's bishop attack condition.  (At the piece's own square the source's
walk steps away from the target and can wrap or raise, which is why that
degenerate target is excluded here.) -/
theorem Bishop.bishop_attack_eval (p : Piece) (b : Board) (x y : Int)
    (hpos : inB p.position.1 p.position.2) (htgt : inB x y)
    (hne_pos : (x, y) ≠ p.position) :
    Bishop.can_attack p b x y = .ok (decide (bishopAttackSpec p b x y)) := by
  obtain ⟨hp1, hp2, hp3, hp4⟩ := hpos
  obtain ⟨ht1, ht2, ht3, ht4⟩ := htgt
  simp only [Bishop.can_attack]
  by_cases halign : (x - p.position.1).natAbs ≠ (y - p.position.2).natAbs
  · rw [if_pos halign]
    have hd : decide (bishopAttackSpec p b x y) = false := by
      apply decide_eq_false
      rintro ⟨hal, -, -⟩
      exact halign hal
    rw [hd]
  · rw [if_neg halign]
    have hal : (x - p.position.1).natAbs = (y - p.position.2).natAbs :=
      not_not.1 halign
    have hxne : x ≠ p.position.1 := by
      intro h
      apply hne_pos
      have h2 : y = p.position.2 := by omega
      rw [h, h2]
    have hyne : y ≠ p.position.2 := by
      intro h
      apply hne_pos
      have h2 : x = p.position.1 := by omega
      rw [h, h2]
    by_cases hx1 : x - p.position.1 > 0
    · by_cases hy1 : y - p.position.2 > 0
      · rw [if_pos hx1, if_pos hy1]
        have hc : (((x - p.position.1).toNat : Nat) : Int) =
            x - p.position.1 := Int.toNat_of_nonneg (by omega)
        have hc2 : (((x - p.position.1).toNat : Nat) : Int) =
            y - p.position.2 := by omega
        rw [attack_spec_bridge p b x y 1 1 (x - p.position.1).toNat
          (by omega) (by rw [hc]; ring) (by rw [hc2]; ring)
          (Or.inl ⟨by simp, by omega⟩)
          (by intro j h1 h2; refine ⟨?_, ?_, ?_, ?_⟩ <;> omega)
          ⟨ht1, ht2, ht3, ht4⟩ (Int.sign_eq_one_of_pos (by omega))
          (Int.sign_eq_one_of_pos (by omega)) (by omega)]
        congr 1
        rw [decide_eq_decide]
        constructor
        · rintro ⟨hB, hE⟩
          exact ⟨hal, hB, hE⟩
        · rintro ⟨-, hB, hE⟩
          exact ⟨hB, hE⟩
      · rw [if_pos hx1, if_neg hy1]
        have hc : (((x - p.position.1).toNat : Nat) : Int) =
            x - p.position.1 := Int.toNat_of_nonneg (by omega)
        have hc2 : (((x - p.position.1).toNat : Nat) : Int) =
            p.position.2 - y := by omega
        rw [attack_spec_bridge p b x y 1 (-1) (x - p.position.1).toNat
          (by omega) (by rw [hc]; ring) (by rw [hc2]; ring)
          (Or.inl ⟨by simp, by omega⟩)
          (by intro j h1 h2; refine ⟨?_, ?_, ?_, ?_⟩ <;> omega)
          ⟨ht1, ht2, ht3, ht4⟩ (Int.sign_eq_one_of_pos (by omega))
          (Int.sign_eq_neg_one_of_neg (by omega)) (by omega)]
        congr 1
        rw [decide_eq_decide]
        constructor
        · rintro ⟨hB, hE⟩
          exact ⟨hal, hB, hE⟩
        · rintro ⟨-, hB, hE⟩
          exact ⟨hB, hE⟩
    · by_cases hy1 : y - p.position.2 > 0
      · rw [if_neg hx1, if_pos hy1]
        have hc : (((p.position.1 - x).toNat : Nat) : Int) =
            p.position.1 - x := Int.toNat_of_nonneg (by omega)
        have hc2 : (((p.position.1 - x).toNat : Nat) : Int) =
            y - p.position.2 := by omega
        rw [attack_spec_bridge p b x y (-1) 1 (p.position.1 - x).toNat
          (by omega) (by rw [hc]; ring) (by rw [hc2]; ring)
          (Or.inl ⟨by simp, by omega⟩)
          (by intro j h1 h2; refine ⟨?_, ?_, ?_, ?_⟩ <;> omega)
          ⟨ht1, ht2, ht3, ht4⟩ (Int.sign_eq_neg_one_of_neg (by omega))
          (Int.sign_eq_one_of_pos (by omega)) (by omega)]
        congr 1
        rw [decide_eq_decide]
        constructor
        · rintro ⟨hB, hE⟩
          exact ⟨hal, hB, hE⟩
        · rintro ⟨-, hB, hE⟩
          exact ⟨hB, hE⟩
      · rw [if_neg hx1, if_neg hy1]
        have hc : (((p.position.1 - x).toNat : Nat) : Int) =
            p.position.1 - x := Int.toNat_of_nonneg (by omega)
        have hc2 : (((p.position.1 - x).toNat : Nat) : Int) =
            p.position.2 - y := by omega
        rw [attack_spec_bridge p b x y (-1) (-1) (p.position.1 - x).toNat
          (by omega) (by rw [hc]; ring) (by rw [hc2]; ring)
          (Or.inl ⟨by simp, by omega⟩)
          (by intro j h1 h2; refine ⟨?_, ?_, ?_, ?_⟩ <;> omega)
          ⟨ht1, ht2, ht3, ht4⟩ (Int.sign_eq_neg_one_of_neg (by omega))
          (Int.sign_eq_neg_one_of_neg (by omega)) (by omega)]
        congr 1
        rw [decide_eq_decide]
        constructor
        · rintro ⟨hB, hE⟩
          exact ⟨hal, hB, hE⟩
        · rintro ⟨-, hB, hE⟩
          exact ⟨hB, hE⟩

/-- A White bishop standing at (0,0). -/
def cBishop1 : Piece := ⟨.bishop, .white, (0, 0)⟩

/-- A Black rook standing at (0,6), used to exhibit the wrapped-index
attack. -/
def cRook6 : Piece := ⟨.rook, .black, (0, 6)⟩

/-- A board holding the White rook `cRook1` at (0,0) and the Black rook
`cRook6` at (0,6). -/
def cBoardWrap : Board :=
  boardSet (boardSet emptyBoard 0 0 (some cRook1)) 6 0 (some cRook6)

/-- C6 (counterexample): the claim quantifies over every target, but for
the out-of-bounds target (0,-2) — which is not a board cell, so under the
claim it holds no opposite-color piece and `can_attack` would have to be
false — the rook at (0,0) on `cBoardWrap` gets `True`: the walk reads the
wrapped cell `board[-1][0]` = (0,7) (empty) and the target read
`board[-2][0]` wraps to the Black rook at (0,6). -/
theorem C6_counterexample :
    Rook.can_attack cRook1 cBoardWrap 0 (-2) = .ok true ∧
    ¬ inB 0 (-2) :=
  ⟨rfl, by decide⟩

/-- C6 (amended: restricted to in-bounds targets, and for the bishop to
targets other than its own square): `can_attack` returns, without
raising, `true` exactly when the target lies on a matching line
(orthogonal for the rook, diagonal for the bishop), every square strictly
between source and target is empty, and the target cell holds an
opposite-color piece — in particular `false` whenever the strictly-between
path is blocked, and `false` on an empty or same-color target cell. -/
theorem C6_can_attack_iff (p : Piece) (b : Board) (x y : Int)
    (hpos : inB p.position.1 p.position.2) (htgt : inB x y) :
    Rook.can_attack p b x y = .ok (decide (rookAttackSpec p b x y)) ∧
    ((x, y) ≠ p.position →
      Bishop.can_attack p b x y = .ok (decide (bishopAttackSpec p b x y))) :=
  ⟨Rook.rook_attack_eval p b x y hpos htgt,
   fun h => Bishop.bishop_attack_eval p b x y hpos htgt h⟩

/-- C6 (witness): on `cBoardWrap` the White rook at (0,0) attacks the
in-bounds square (0,6) — the path (0,1)…(0,5) is empty and (0,6) holds
the Black rook — and the characterization evaluates accordingly. -/
theorem C6_witness :
    Rook.can_attack cRook1 cBoardWrap 0 6 =
      .ok (decide (rookAttackSpec cRook1 cBoardWrap 0 6)) ∧
    Rook.can_attack cRook1 cBoardWrap 0 6 = .ok true :=
  ⟨(C6_can_attack_iff cRook1 cBoardWrap 0 6 (by decide) (by decide)).1,
   rfl⟩

/-- C7 (counterexample): the claim says Rook/Bishop reject every
out-of-bounds target with `false` and no out-of-range board access, but
for the aligned out-of-bounds target (0,9) the rook's path walk runs off
the board: on the empty board the walk reaches `board[8][0]`, an
out-of-range access (`IndexError`), so `can_attack` raises instead of
returning false. -/
theorem C7_counterexample :
    Rook.can_attack cRook1 emptyBoard 0 9 = .error .indexError ∧
    ¬ inB 0 9 :=
  ⟨rfl, by decide⟩

/-- C7 (amended): the pawn rejects every out-of-bounds target through its
explicit bounds check, returning `false` with no board access; the rook
and bishop return `false` for every target rejected by their geometric
pre-checks — which covers all out-of-bounds targets off their lines — but
an out-of-bounds target on the piece's line is not covered (the path walk
then leaves the board, wrapping or raising, as the counterexample
shows). -/
theorem C7_out_of_bounds_attack (p : Piece) (b : Board) (x y : Int) :
    (¬ inB x y → Pawn.can_attack p b x y = false) ∧
    (x ≠ p.position.1 → y ≠ p.position.2 →
      Rook.can_attack p b x y = .ok false) ∧
    ((x - p.position.1).natAbs ≠ (y - p.position.2).natAbs →
      Bishop.can_attack p b x y = .ok false) := by
  refine ⟨?_, ?_, ?_⟩
  · intro h
    unfold Pawn.can_attack
    rw [if_pos]
    intro hc
    exact h hc
  · intro hx hy
    simp only [Rook.can_attack]
    rw [if_pos ⟨hx, hy⟩]
  · intro hal
    simp only [Bishop.can_attack]
    rw [if_pos hal]

/-- C7 (witness): the pawn at (4,1) rejects the out-of-bounds target
(9,9); the rook at (0,0) rejects the non-aligned out-of-bounds target
(1,9); the bishop-shaped piece at (0,0) rejects the non-diagonal
out-of-bounds target (0,9). -/
theorem C7_witness :
    Pawn.can_attack wPawnE2 emptyBoard 9 9 = false ∧
    Rook.can_attack cRook1 emptyBoard 1 9 = .ok false ∧
    Bishop.can_attack cBishop1 emptyBoard 0 9 = .ok false :=
  ⟨(C7_out_of_bounds_attack wPawnE2 emptyBoard 9 9).1 (by decide),
   (C7_out_of_bounds_attack cRook1 emptyBoard 1 9).2.1 (by decide) (by decide),
   (C7_out_of_bounds_attack cBishop1 emptyBoard 0 9).2.2 (by decide)⟩
